import Mathlib

/-!
Verification of the scheduling and server-matching core of a reverse-proxy
configuration system, against its Go sources.

Embedded here:
* `RandomScheduling` with its `Start`/`Next` operations (weighted random
  selection via an expansion array), from the `scheduling` package.
* `ServerConfig.MatchName`, `NextBackend`, `NextFastcgi` from the
  `teaconfigs` package.
* The backend "online" admin action (`OnlineAction.Run`).

Go `uint` values are modelled as `Nat`.  `rand.Int()` is a non-negative
machine integer; operations that draw from the generator take that draw as an
explicit `Nat` argument.  Calls to `rand.Seed` are made observable: each
operation that may seed is defined as an `...E` function returning its result
paired with the number of `rand.Seed` invocations it performs, and the plain
operation is its first projection.  `math.Round` on the non-negative quotient
`a / b` is modelled by exact rational rounding, half away from zero:
`(2*a + b) / (2*b)` in natural-number arithmetic; for the magnitudes the code
produces (numerators ≤ 10^8) this agrees with the `float64` computation.
-/

/-- Modelled from the spec (§3 data model): the `CandidateInterface` of the
`scheduling` package is not under the given sources; a candidate exposes an
identity and a weight (`CandidateWeight`). -/
structure Candidate where
  id : Nat
  weight : Nat
  deriving DecidableEq, Repr

/-- `c.CandidateWeight()` of the Go interface. -/
def Candidate.CandidateWeight (c : Candidate) : Nat := c.weight

/-- Weight normalization performed (twice, identically) inside
`RandomScheduling.Start`: `0 -> 1`, `> 10000 -> 10000`. -/
def normalizeWeight (w : Nat) : Nat :=
  if w = 0 then 1 else if w > 10000 then 10000 else w

/-- `uint(math.Round(float64(a) / float64(b)))` for the non-negative operands
used by `Start`, as exact rational rounding half away from zero. -/
def natRound (a b : Nat) : Nat := (2 * a + b) / (2 * b)

/-- The first loop of `RandomScheduling.Start`: sum of normalized candidate
weights. -/
def sumWeight : List Candidate → Nat
  | [] => 0
  | c :: rest => normalizeWeight c.CandidateWeight + sumWeight rest

/-- The per-candidate slot count computed in the second loop of `Start`:
the normalized weight itself when `sumWeight <= 1000`, otherwise
`round(weight * 10000 / sumWeight)`. -/
def expandCount (sw w : Nat) : Nat :=
  if sw ≤ 1000 then w else natRound (w * 10000) sw

/-- The `RandomScheduling` struct: the inherited candidate list, the
expansion array, and the recorded slot count. -/
structure RandomScheduling where
  Candidates : List Candidate
  array : List Candidate
  count : Nat
  deriving DecidableEq, Repr

/-- A freshly created `RandomScheduling` over a candidate list: `array` and
`count` start at their zero values. -/
def newRandomScheduling (cs : List Candidate) : RandomScheduling :=
  { Candidates := cs, array := [], count := 0 }

/-- The owner replacing the candidate set (e.g. after a candidate is marked
down and excluded); `array` and `count` are untouched, as in the Go struct. -/
def RandomScheduling.setCandidates (s : RandomScheduling) (cs : List Candidate) :
    RandomScheduling :=
  { s with Candidates := cs }

/-- One iteration of the second loop of `Start`: normalize the weight,
compute the slot count, append that many copies of the candidate to `array`
and add it to `count`. -/
def startStep (sw : Nat) (st : RandomScheduling) (c : Candidate) : RandomScheduling :=
  let weight := normalizeWeight c.CandidateWeight
  let count := expandCount sw weight
  { st with array := st.array ++ List.replicate count c, count := st.count + count }

/-- `RandomScheduling.Start`, with the trailing `rand.Seed(time.Now().UnixNano())`
made observable as a seed count: when `sumWeight == 0` the method returns
early (no seeding); otherwise it runs the expansion loop over the current
`array`/`count` (note: it appends, it does not reset) and seeds once. -/
def RandomScheduling.StartE (this : RandomScheduling) : RandomScheduling × Nat :=
  let sw := sumWeight this.Candidates
  if sw = 0 then (this, 0)
  else (this.Candidates.foldl (startStep sw) this, 1)

/-- `RandomScheduling.Start` (state effect only). -/
def RandomScheduling.Start (this : RandomScheduling) : RandomScheduling :=
  this.StartE.1

/-- `RandomScheduling.Next` given the draw `r = rand.Int()`: `nil` when
`count == 0`, otherwise `array[r % count]` (out-of-range access, impossible
when `count` matches the array, would also yield `none` here).  It never
seeds, so its seed count is 0. -/
def RandomScheduling.NextE (this : RandomScheduling) (r : Nat) :
    Option Candidate × Nat :=
  if this.count = 0 then (none, 0)
  else (this.array.get? (r % this.count), 0)

/-- `RandomScheduling.Next` (result only). -/
def RandomScheduling.Next (this : RandomScheduling) (r : Nat) : Option Candidate :=
  (this.NextE r).1

/-- The flat expansion produced by one run of the second loop of `Start` from
an empty array: each candidate in order, repeated `expandCount` times. -/
def expansion (sw : Nat) : List Candidate → List Candidate
  | [] => []
  | c :: rest =>
      List.replicate (expandCount sw (normalizeWeight c.CandidateWeight)) c ++
        expansion sw rest

example : sumWeight [⟨0, 0⟩, ⟨1, 20000⟩] = 10001 := by decide
example : expandCount 1200 200 = 1667 := by decide
example : (newRandomScheduling [⟨0, 3⟩]).Start.array = [⟨0, 3⟩, ⟨0, 3⟩, ⟨0, 3⟩] := by decide
example : (newRandomScheduling [⟨0, 3⟩]).Start.Next 4 = some ⟨0, 3⟩ := by decide
example : expandCount 20001 1 = 0 := by decide

/-- Modelled from the spec (§3): the `ServerBackendConfig` struct declaration
is not under the given sources; per the data model and its uses in
`NextBackend` and the health transitions, a backend carries an `On` switch
and an `IsDown` health flag (plus an identity, unused here). -/
structure ServerBackendConfig where
  Id : String
  On : Bool
  IsDown : Bool
  deriving DecidableEq, Repr

/-- Modelled from the spec (§1, §4.5): the `FastcgiConfig` struct declaration
is not under the given sources; the spec's selection contract speaks of
"on and not down" entries, so the model carries those two flags. -/
structure FastcgiConfig where
  On : Bool
  IsDown : Bool
  deriving DecidableEq, Repr

/-- The fields of the Go `ServerConfig` struct that the verified operations
read: the configured domain names, the backend list, and the fastcgi list. -/
structure ServerConfig where
  Name : List String
  Backends : List ServerBackendConfig
  Fastcgi : List FastcgiConfig
  deriving Repr

/-- `ServerConfig.NextBackend` given the draw `r = rand.Int()`, with its
`rand.Seed` call counted: `nil` for an empty backend list, otherwise filter
to `backend.On && !backend.IsDown`, return `nil` if none remain, else seed
once and return `availableBackends[r % countBackends]`. -/
def ServerConfig.NextBackendE (this : ServerConfig) (r : Nat) :
    Option ServerBackendConfig × Nat :=
  if this.Backends.length = 0 then (none, 0)
  else
    let availableBackends := this.Backends.filter fun b => b.On && !b.IsDown
    let countBackends := availableBackends.length
    if countBackends = 0 then (none, 0)
    else (availableBackends.get? (r % countBackends), 1)

/-- `ServerConfig.NextBackend` (result only). -/
def ServerConfig.NextBackend (this : ServerConfig) (r : Nat) :
    Option ServerBackendConfig :=
  (this.NextBackendE r).1

/-- `ServerConfig.NextFastcgi` given the draw `r`, with its `rand.Seed` call
counted: `nil` when the fastcgi list is empty, otherwise seed once and return
`Fastcgi[r % countFastcgi]` — no filtering on `On`/`IsDown` occurs. -/
def ServerConfig.NextFastcgiE (this : ServerConfig) (r : Nat) :
    Option FastcgiConfig × Nat :=
  let countFastcgi := this.Fastcgi.length
  if countFastcgi = 0 then (none, 0)
  else (this.Fastcgi.get? (r % countFastcgi), 1)

/-- `ServerConfig.NextFastcgi` (result only). -/
def ServerConfig.NextFastcgi (this : ServerConfig) (r : Nat) : Option FastcgiConfig :=
  (this.NextFastcgiE r).1

/-- Helper for `splitOnDot`: accumulates the current segment (reversed). -/
def splitOnDotAux : List Char → List Char → List String
  | [], acc => [String.mk acc.reverse]
  | c :: rest, acc =>
      if c = '.' then String.mk acc.reverse :: splitOnDotAux rest []
      else splitOnDotAux rest (c :: acc)

/-- Go's `strings.Split(s, ".")`: the substrings of `s` between `.`
separators, keeping empty segments (leading, trailing, consecutive dots). -/
def splitOnDot (s : String) : List String := splitOnDotAux s.data []

example : splitOnDot "a.b.com" = ["a", "b", "com"] := by decide
example : splitOnDot "" = [""] := by decide
example : splitOnDot ".a..b." = ["", "a", "", "b", ""] := by decide

/-- The per-segment test inside `MatchName`'s inner loop: segment `p2` of the
configured name accepts segment `p1` of the host when they are equal or `p2`
is `*` or empty. -/
def segMatch (p1 p2 : String) : Bool :=
  p1 == p2 || p2 == "*" || p2 == ""

/-- The inner loop of `MatchName`: every configured-name segment accepts the
host segment at the same index (the caller has checked equal lengths). -/
def piecesMatch (pieces1 pieces2 : List String) : Bool :=
  (List.zip pieces2 pieces1).all fun pp => segMatch pp.2 pp.1

/-- The `for _, testName := range this.Name` loop of `MatchName`: skip empty
names; return `(testName, true)` on exact equality; skip names whose
dot-segment count differs from the host's; return `("", true)` when the
segment comparison succeeds. -/
def matchNameLoop (name : String) (pieces1 : List String) :
    List String → String × Bool
  | [] => ("", false)
  | testName :: rest =>
      if testName.length = 0 then matchNameLoop name pieces1 rest
      else if name = testName then (testName, true)
      else
        let pieces2 := splitOnDot testName
        if pieces1.length ≠ pieces2.length then matchNameLoop name pieces1 rest
        else if piecesMatch pieces1 pieces2 then ("", true)
        else matchNameLoop name pieces1 rest

/-- `ServerConfig.MatchName`: `("", false)` for an empty host, otherwise the
scan over the configured names. -/
def ServerConfig.MatchName (this : ServerConfig) (name : String) : String × Bool :=
  if name.length = 0 then ("", false)
  else matchNameLoop name (splitOnDot name) this.Name

/-- Combined per-name success test (exact equality, or equal segment counts
with every segment accepted), used to characterize the `matched` flag. -/
def nameMatches (name testName : String) : Bool :=
  testName.length ≠ 0 &&
    (name == testName ||
      ((splitOnDot name).length == (splitOnDot testName).length &&
        piecesMatch (splitOnDot name) (splitOnDot testName)))

example :
    ServerConfig.MatchName ⟨["a.b.com"], [], []⟩ "a.b.com" = ("a.b.com", true) := by
  decide
example :
    ServerConfig.MatchName ⟨["*.b.com"], [], []⟩ "x.b.com" = ("", true) := by
  decide
example :
    ServerConfig.MatchName ⟨["a.b.c.com"], [], []⟩ "a.b.com" = ("", false) := by
  decide
example :
    ServerConfig.MatchName ⟨["*.b.com", "a.b.com"], [], []⟩ "a.b.com" = ("", true) := by
  decide

/-- Modelled from the spec (§3, §4.2): the running-server backend of the
`teaproxy` package is not under the given sources; per the data model it
carries an identity, the `IsDown` health flag and the `CurrentFails`
counter. -/
structure ProxyBackend where
  Id : String
  IsDown : Bool
  CurrentFails : Nat
  deriving DecidableEq, Repr

/-- Modelled from the spec (§3): a backend pool exists per location and
optionally per protocol (websocket), so a running server's pools are keyed
by a location id and a websocket flag. -/
structure BackendPool where
  locationId : String
  websocket : Bool
  Backends : List ProxyBackend
  deriving DecidableEq, Repr

/-- Modelled from the spec (§4.2): the running server owns the backend pools
and can re-run scheduling setup; `schedulingSetups` counts the
`SetupScheduling` invocations, making the re-run observable. -/
structure RunningServer where
  pools : List BackendPool
  schedulingSetups : Nat
  deriving DecidableEq, Repr

/-- Modelled from the spec: `teaproxy` `FindBackendList` is not under the
given sources; it looks up the pool for a location id and websocket flag. -/
def RunningServer.FindBackendList (s : RunningServer) (locationId : String)
    (websocket : Bool) : Option BackendPool :=
  s.pools.find? fun p => p.locationId == locationId && p.websocket == websocket

/-- Modelled from the spec: `FindBackend` is not under the given sources; it
looks up a backend by id inside a pool. -/
def BackendPool.FindBackend (p : BackendPool) (backendId : String) :
    Option ProxyBackend :=
  p.Backends.find? fun b => b.Id == backendId

/-- The in-place mutation `backend.IsDown = false; backend.CurrentFails = 0`
performed through the pointer returned by `FindBackend`: it updates the first
backend with the given id. -/
def markBackendUp : List ProxyBackend → String → List ProxyBackend
  | [], _ => []
  | b :: rest, backendId =>
      if b.Id == backendId then { b with IsDown := false, CurrentFails := 0 } :: rest
      else b :: markBackendUp rest backendId

/-- The same mutation seen at the pool-list level: it reaches the first pool
with the given key (the one `FindBackendList` returns). -/
def markPoolBackendUp : List BackendPool → String → Bool → String → List BackendPool
  | [], _, _, _ => []
  | p :: rest, locationId, websocket, backendId =>
      if p.locationId == locationId && p.websocket == websocket then
        { p with Backends := markBackendUp p.Backends backendId } :: rest
      else p :: markPoolBackendUp rest locationId websocket backendId

/-- The body of `OnlineAction.Run` from the running server on: find the
backend list, find the backend, and if both exist clear `IsDown`, reset
`CurrentFails` and call `SetupScheduling` on the owning server; otherwise
leave the server untouched. -/
def OnlineRun (rs : RunningServer) (locationId : String) (websocket : Bool)
    (backendId : String) : RunningServer :=
  match rs.FindBackendList locationId websocket with
  | none => rs
  | some backendList =>
      match backendList.FindBackend backendId with
      | none => rs
      | some _ =>
          { rs with
            pools := markPoolBackendUp rs.pools locationId websocket backendId,
            schedulingSetups := rs.schedulingSetups + 1 }

/-- `OnlineAction.Run` including the `runningServer != nil` guard: when
`teaproxy.FindServer` yields no running server, nothing happens. -/
def OnlineRunAction (rs : Option RunningServer) (locationId : String)
    (websocket : Bool) (backendId : String) : Option RunningServer :=
  match rs with
  | none => none
  | some s => some (OnlineRun s locationId websocket backendId)

example :
    OnlineRun ⟨[⟨"loc", false, [⟨"b1", true, 7⟩]⟩], 0⟩ "loc" false "b1" =
      ⟨[⟨"loc", false, [⟨"b1", false, 0⟩]⟩], 1⟩ := by decide
example :
    OnlineRun ⟨[⟨"loc", false, [⟨"b1", true, 7⟩]⟩], 0⟩ "loc" false "zz" =
      ⟨[⟨"loc", false, [⟨"b1", true, 7⟩]⟩], 0⟩ := by decide

/-! ### Structural lemmas about `Start` and the expansion array -/

theorem normalizeWeight_pos (w : Nat) : 0 < normalizeWeight w := by
  unfold normalizeWeight
  split
  · exact Nat.one_pos
  · split
    · exact Nat.succ_pos _
    · omega

theorem sumWeight_eq_zero_iff (cs : List Candidate) : sumWeight cs = 0 ↔ cs = [] := by
  cases cs with
  | nil => simp [sumWeight]
  | cons c rest =>
      simp only [sumWeight]
      constructor
      · intro h
        have := normalizeWeight_pos c.CandidateWeight
        omega
      · intro h
        exact absurd h (List.cons_ne_nil c rest)

theorem foldl_startStep_array (sw : Nat) (l : List Candidate) :
    ∀ init : RandomScheduling,
      (List.foldl (startStep sw) init l).array = init.array ++ expansion sw l := by
  induction l with
  | nil => intro init; simp [expansion]
  | cons c rest ih =>
      intro init
      simp only [List.foldl_cons, ih, expansion, startStep]
      simp [List.append_assoc]

theorem foldl_startStep_count (sw : Nat) (l : List Candidate) :
    ∀ init : RandomScheduling,
      (List.foldl (startStep sw) init l).count =
        init.count + (expansion sw l).length := by
  induction l with
  | nil => intro init; simp [expansion]
  | cons c rest ih =>
      intro init
      simp only [List.foldl_cons, ih, expansion, startStep]
      simp [Nat.add_assoc]

theorem foldl_startStep_candidates (sw : Nat) (l : List Candidate) :
    ∀ init : RandomScheduling,
      (List.foldl (startStep sw) init l).Candidates = init.Candidates := by
  induction l with
  | nil => intro init; rfl
  | cons c rest ih =>
      intro init
      simp only [List.foldl_cons, ih, startStep]

theorem Start_array (s : RandomScheduling) :
    s.Start.array = s.array ++ expansion (sumWeight s.Candidates) s.Candidates := by
  by_cases h : sumWeight s.Candidates = 0
  · have hnil : s.Candidates = [] := (sumWeight_eq_zero_iff s.Candidates).mp h
    simp [RandomScheduling.Start, RandomScheduling.StartE, h, hnil, expansion,
      sumWeight]
  · simp [RandomScheduling.Start, RandomScheduling.StartE, h, foldl_startStep_array]

theorem Start_count (s : RandomScheduling) :
    s.Start.count =
      s.count + (expansion (sumWeight s.Candidates) s.Candidates).length := by
  by_cases h : sumWeight s.Candidates = 0
  · have hnil : s.Candidates = [] := (sumWeight_eq_zero_iff s.Candidates).mp h
    simp [RandomScheduling.Start, RandomScheduling.StartE, h, hnil, expansion,
      sumWeight]
  · simp [RandomScheduling.Start, RandomScheduling.StartE, h, foldl_startStep_count]

theorem Start_candidates (s : RandomScheduling) :
    s.Start.Candidates = s.Candidates := by
  by_cases h : sumWeight s.Candidates = 0
  · simp [RandomScheduling.Start, RandomScheduling.StartE, h]
  · simp [RandomScheduling.Start, RandomScheduling.StartE, h,
      foldl_startStep_candidates]

theorem mem_of_mem_expansion {c : Candidate} {sw : Nat} :
    ∀ {l : List Candidate}, c ∈ expansion sw l → c ∈ l := by
  intro l
  induction l with
  | nil => intro h; simp [expansion] at h
  | cons a rest ih =>
      intro h
      simp only [expansion, List.mem_append, List.mem_replicate] at h
      rcases h with h | h
      · exact h.2 ▸ List.mem_cons_self a rest
      · exact List.mem_cons_of_mem a (ih h)

theorem count_expansion_of_not_mem (sw : Nat) (c : Candidate) :
    ∀ l : List Candidate, c ∉ l → (expansion sw l).count c = 0 := by
  intro l
  induction l with
  | nil => intro _; simp [expansion]
  | cons a rest ih =>
      intro h
      have hca : c ≠ a := fun hc => h (hc ▸ List.mem_cons_self a rest)
      have hcr : c ∉ rest := fun hc => h (List.mem_cons_of_mem a hc)
      simp [expansion, List.count_append, List.count_replicate, hca,
        Ne.symm hca, ih hcr]

theorem count_expansion (sw : Nat) (c : Candidate) :
    ∀ l : List Candidate, l.Nodup → c ∈ l →
      (expansion sw l).count c =
        expandCount sw (normalizeWeight c.CandidateWeight) := by
  intro l
  induction l with
  | nil => intro _ h; simp at h
  | cons a rest ih =>
      intro hnd hmem
      have hand := List.nodup_cons.mp hnd
      rcases List.mem_cons.mp hmem with h | h
      · subst h
        simp [expansion, List.count_append, List.count_replicate,
          count_expansion_of_not_mem sw c rest hand.1]
      · have hca : c ≠ a := fun hc => hand.1 (hc ▸ h)
        simp [expansion, List.count_append, List.count_replicate, hca,
          Ne.symm hca, ih hand.2 h]

theorem newStart_array (cs : List Candidate) :
    (newRandomScheduling cs).Start.array = expansion (sumWeight cs) cs := by
  rw [show (newRandomScheduling cs).Start.array
      = (newRandomScheduling cs).Start.array from rfl, Start_array]
  simp [newRandomScheduling]

theorem newStart_count (cs : List Candidate) :
    (newRandomScheduling cs).Start.count = (expansion (sumWeight cs) cs).length := by
  rw [Start_count]
  simp [newRandomScheduling]

theorem expansion_length_of_le (sw : Nat) (hsw : sw ≤ 1000) :
    ∀ l : List Candidate, (expansion sw l).length = sumWeight l := by
  intro l
  induction l with
  | nil => simp [expansion, sumWeight]
  | cons c rest ih =>
      simp [expansion, sumWeight, expandCount, hsw, ih]

theorem expandCount_mul_le (sw w : Nat) (hsw : 1000 < sw) :
    expandCount sw w * (2 * sw) ≤ 2 * (w * 10000) + sw := by
  unfold expandCount natRound
  rw [if_neg (by omega)]
  exact Nat.div_mul_le_self _ _

theorem expansion_length_mul_bound (sw : Nat) (hsw : 1000 < sw) :
    ∀ l : List Candidate,
      (expansion sw l).length * (2 * sw) ≤
        20000 * sumWeight l + l.length * sw := by
  intro l
  induction l with
  | nil => simp [expansion, sumWeight]
  | cons c rest ih =>
      simp only [expansion, sumWeight, List.length_append,
        List.length_replicate, List.length_cons]
      have h1 := expandCount_mul_le sw (normalizeWeight c.CandidateWeight) hsw
      have h2 : (expandCount sw (normalizeWeight c.CandidateWeight) +
            (expansion sw rest).length) * (2 * sw) =
          expandCount sw (normalizeWeight c.CandidateWeight) * (2 * sw) +
            (expansion sw rest).length * (2 * sw) := by ring
      rw [h2]
      have h3 : 20000 * (normalizeWeight c.CandidateWeight + sumWeight rest) +
            (rest.length + 1) * sw =
          (2 * (normalizeWeight c.CandidateWeight * 10000) + sw) +
            (20000 * sumWeight rest + rest.length * sw) := by ring
      rw [h3]
      exact Nat.add_le_add h1 ih

theorem one_le_expandCount (sw w : Nat) (hw : 1 ≤ w) (hsw : sw ≤ 20000) :
    1 ≤ expandCount sw w := by
  unfold expandCount natRound
  split
  · exact hw
  · rename_i h
    have hpos : 0 < 2 * sw := by omega
    rw [Nat.one_le_div_iff hpos]
    have h1 : 20000 * 1 ≤ 20000 * w := Nat.mul_le_mul_left 20000 hw
    have h2 : 2 * (w * 10000) = 20000 * w := by ring
    omega

theorem expansion_length_pos (sw : Nat) (hsw : sw ≤ 20000) (c : Candidate)
    (l : List Candidate) : 0 < (expansion sw (c :: l)).length := by
  simp only [expansion, List.length_append, List.length_replicate]
  have := one_le_expandCount sw (normalizeWeight c.CandidateWeight)
    (normalizeWeight_pos c.CandidateWeight) hsw
  omega

theorem sumWeight_replicate (c : Candidate) :
    ∀ n : Nat, sumWeight (List.replicate n c) =
      n * normalizeWeight c.CandidateWeight := by
  intro n
  induction n with
  | zero => simp [sumWeight]
  | succ k ih =>
      simp only [List.replicate_succ, sumWeight, ih]
      ring

theorem expansion_eq_nil_of_zero_counts (sw : Nat) :
    ∀ l : List Candidate,
      (∀ c ∈ l, expandCount sw (normalizeWeight c.CandidateWeight) = 0) →
      expansion sw l = [] := by
  intro l
  induction l with
  | nil => intro _; rfl
  | cons c rest ih =>
      intro h
      have hc := h c (List.mem_cons_self c rest)
      have hrest : ∀ a ∈ rest, expandCount sw (normalizeWeight a.CandidateWeight) = 0 :=
        fun a ha => h a (List.mem_cons_of_mem c ha)
      simp [expansion, hc, ih hrest]

/-! ### Claim theorems: random scheduling -/

/-- C2: `Start` on a freshly created `RandomScheduling` builds an expansion
array in which each (distinct) candidate appears exactly its normalized
weight times when the sum of normalized weights is at most 1000, and exactly
`round(weight * 10000 / sumWeight)` times otherwise; the recorded `count`
equals the total array length. -/
theorem randomStart_expansion_counts (cs : List Candidate) (h : cs.Nodup) :
    (∀ c ∈ cs,
      ((newRandomScheduling cs).Start).array.count c =
        (if sumWeight cs ≤ 1000 then normalizeWeight c.CandidateWeight
         else natRound (normalizeWeight c.CandidateWeight * 10000) (sumWeight cs))) ∧
    ((newRandomScheduling cs).Start).count =
      ((newRandomScheduling cs).Start).array.length := by
  constructor
  · intro c hc
    rw [newStart_array, count_expansion (sumWeight cs) c cs h hc]
    rfl
  · rw [newStart_count, newStart_array]

/-- Witness for C2 at a concrete two-candidate list. -/
theorem randomStart_expansion_counts_witness :
    ((newRandomScheduling [⟨0, 2⟩, ⟨1, 3⟩]).Start).count =
      ((newRandomScheduling [⟨0, 2⟩, ⟨1, 3⟩]).Start).array.length :=
  (randomStart_expansion_counts [⟨0, 2⟩, ⟨1, 3⟩] (by decide)).2

/-- C10: the stored `count` equals the expansion array's length on a fresh
instance and is preserved by every `Start` call (whatever happened to the
candidate list in between), and whenever `count` is nonzero the index
`r % count` used by `Next` is within the array's bounds, so `Next` never
accesses the array out of range. -/
theorem count_matches_array (s : RandomScheduling)
    (h : s.count = s.array.length) :
    (∀ cs : List Candidate,
      (newRandomScheduling cs).count = (newRandomScheduling cs).array.length) ∧
    s.Start.count = s.Start.array.length ∧
    (s.count ≠ 0 → ∀ r : Nat,
      r % s.count < s.array.length ∧ (s.Next r).isSome = true) := by
  refine ⟨fun cs => rfl, ?_, ?_⟩
  · rw [Start_count, Start_array, List.length_append, h]
  · intro hc r
    have hlt : r % s.count < s.count := Nat.mod_lt r (Nat.pos_of_ne_zero hc)
    have hlt2 : r % s.count < s.array.length := h ▸ hlt
    refine ⟨hlt2, ?_⟩
    unfold RandomScheduling.Next RandomScheduling.NextE
    rw [if_neg hc]
    simp [List.getElem?_eq_getElem hlt2]

/-- Witness for C10 at a concrete instance whose count matches its array. -/
theorem count_matches_array_witness :
    (⟨[], [⟨0, 1⟩], 1⟩ : RandomScheduling).Start.count =
      (⟨[], [⟨0, 1⟩], 1⟩ : RandomScheduling).Start.array.length :=
  (count_matches_array ⟨[], [⟨0, 1⟩], 1⟩ (by decide)).2.1

/-- C1 counterexample: `Start` on a fresh instance over candidate `⟨0,1⟩`,
then a change of the candidate set to `[⟨1,1⟩]` followed by a second `Start`,
leaves the stale candidate in the expansion array: `Next` with draw 0 returns
`⟨0,1⟩`, which is not in the candidate set current at the latest `Start`. -/
theorem restart_returns_stale_candidate :
    ((((newRandomScheduling [⟨0, 1⟩]).Start).setCandidates [⟨1, 1⟩]).Start).Next 0 =
      some ⟨0, 1⟩ ∧ (⟨0, 1⟩ : Candidate) ∉ [(⟨1, 1⟩ : Candidate)] := by
  decide

/-- C1 (amended): when `Start` is invoked on a freshly created
`RandomScheduling` (empty expansion array), every subsequent `Next` returns
only members of the candidate set current at that `Start`; re-invoking
`Start` on the same instance appends to the old array, so the guarantee is
only for the first `Start`. -/
theorem next_mem_candidates_of_fresh (cs : List Candidate) (r : Nat)
    (c : Candidate) (h : ((newRandomScheduling cs).Start).Next r = some c) :
    c ∈ cs := by
  unfold RandomScheduling.Next RandomScheduling.NextE at h
  by_cases hc : ((newRandomScheduling cs).Start).count = 0
  · rw [if_pos hc] at h
    exact absurd h (by simp)
  · rw [if_neg hc] at h
    have hmem : c ∈ ((newRandomScheduling cs).Start).array :=
      List.get?_mem h
    rw [newStart_array] at hmem
    exact mem_of_mem_expansion hmem

/-- Witness for C1 (amended) at a concrete singleton candidate list. -/
theorem next_mem_candidates_of_fresh_witness :
    (⟨0, 7⟩ : Candidate) ∈ [(⟨0, 7⟩ : Candidate)] :=
  next_mem_candidates_of_fresh [⟨0, 7⟩] 3 ⟨0, 7⟩ (by decide)

/-- C4 counterexample: six candidates of weight 200 give
`sumWeight = 1200 > 1000`, each expansion count `round(200·10000/1200) = 1667`,
so the array holds `6 · 1667 = 10002 > 10000` entries. -/
theorem start_array_length_exceeds_10000 :
    10000 < ((newRandomScheduling
      [⟨0, 200⟩, ⟨1, 200⟩, ⟨2, 200⟩, ⟨3, 200⟩, ⟨4, 200⟩,
        ⟨5, 200⟩]).Start).array.length := by
  rw [newStart_array]
  have h : sumWeight [⟨0, 200⟩, ⟨1, 200⟩, ⟨2, 200⟩, ⟨3, 200⟩, ⟨4, 200⟩,
      ⟨5, 200⟩] = 1200 := by decide
  rw [h]
  simp only [expansion, List.length_append, List.length_replicate,
    List.length_nil]
  decide

/-- C4 (amended): after `Start` on a fresh instance the expansion array holds
at most `10000 + n/2` entries (`n` the number of candidates): per-candidate
rounding adds at most half a slot, so `2·length ≤ 20000 + n`. -/
theorem start_array_length_bound (cs : List Candidate) :
    2 * ((newRandomScheduling cs).Start).array.length ≤ 20000 + cs.length := by
  rw [newStart_array]
  by_cases h : sumWeight cs ≤ 1000
  · rw [expansion_length_of_le (sumWeight cs) h cs]
    omega
  · have hgt : 1000 < sumWeight cs := by omega
    have hb := expansion_length_mul_bound (sumWeight cs) hgt cs
    have hrw : (expansion (sumWeight cs) cs).length * (2 * sumWeight cs) =
        (2 * (expansion (sumWeight cs) cs).length) * sumWeight cs := by ring
    rw [hrw] at hb
    have hrw2 : 20000 * sumWeight cs + cs.length * sumWeight cs =
        (20000 + cs.length) * sumWeight cs := by ring
    rw [hrw2] at hb
    exact Nat.le_of_mul_le_mul_right hb (by omega)

/-- C8 counterexample: 20001 candidates of weight 1 give `sumWeight = 20001`,
every per-candidate count `round(10000/20001) = 0`, an empty expansion array,
and `Next` returning `none` although the candidate list is non-empty. -/
theorem next_none_on_20001_candidates :
    List.replicate 20001 (⟨0, 1⟩ : Candidate) ≠ [] ∧
      ((newRandomScheduling
        (List.replicate 20001 (⟨0, 1⟩ : Candidate))).Start).Next 0 = none := by
  constructor
  · exact List.length_pos.mp (by rw [List.length_replicate]; omega)
  · have hsw : sumWeight (List.replicate 20001 (⟨0, 1⟩ : Candidate)) = 20001 := by
      rw [sumWeight_replicate]
      decide
    have hzero : ∀ c ∈ List.replicate 20001 (⟨0, 1⟩ : Candidate),
        expandCount 20001 (normalizeWeight c.CandidateWeight) = 0 := by
      intro c hcmem
      rw [List.eq_of_mem_replicate hcmem]
      decide
    have hcount : ((newRandomScheduling
        (List.replicate 20001 (⟨0, 1⟩ : Candidate))).Start).count = 0 := by
      rw [newStart_count, hsw, expansion_eq_nil_of_zero_counts 20001 _ hzero]
      rfl
    unfold RandomScheduling.Next RandomScheduling.NextE
    rw [if_pos hcount]

/-- C8 (amended): the sum of normalized weights is zero exactly for the empty
candidate list, and then `Next` always returns `none`; for a non-empty list
`Next` returns a candidate provided the sum of normalized weights is at most
20000 (beyond that every scaled count can round to zero, leaving an empty
table, as the counterexample shows). -/
theorem next_unschedulable (cs : List Candidate) :
    (sumWeight cs = 0 ↔ cs = []) ∧
    (cs = [] → ∀ r : Nat, ((newRandomScheduling cs).Start).Next r = none) ∧
    (cs ≠ [] → sumWeight cs ≤ 20000 →
      ∀ r : Nat, (((newRandomScheduling cs).Start).Next r).isSome = true) := by
  refine ⟨sumWeight_eq_zero_iff cs, ?_, ?_⟩
  · intro hnil r
    subst hnil
    rfl
  · intro hne hle r
    have hcount : ((newRandomScheduling cs).Start).count =
        (expansion (sumWeight cs) cs).length := newStart_count cs
    have hpos : 0 < (expansion (sumWeight cs) cs).length := by
      cases cs with
      | nil => exact absurd rfl hne
      | cons c l => exact expansion_length_pos (sumWeight (c :: l)) hle c l
    have hcne : ((newRandomScheduling cs).Start).count ≠ 0 := by omega
    unfold RandomScheduling.Next RandomScheduling.NextE
    rw [if_neg hcne]
    have hlt : r % ((newRandomScheduling cs).Start).count <
        ((newRandomScheduling cs).Start).array.length := by
      rw [newStart_array]
      rw [hcount]
      exact Nat.lt_of_lt_of_le (Nat.mod_lt r (by omega)) (Nat.le_refl _)
    simp [List.getElem?_eq_getElem hlt]

/-- Witness for C8 at the empty list and a concrete non-empty list. -/
theorem next_unschedulable_witness :
    (((newRandomScheduling [(⟨0, 5⟩ : Candidate)]).Start).Next 9).isSome = true :=
  (next_unschedulable [⟨0, 5⟩]).2.2 (by decide) (by decide) 9

/-! ### Claim theorems: server-level selectors and seeding -/

/-- C5 counterexample: `NextFastcgi` on a server whose only fastcgi entry is
off and down still returns that entry — it does not restrict the pick to
on-and-not-down entries. -/
theorem nextFastcgi_ignores_status :
    (⟨[], [], [⟨false, true⟩]⟩ : ServerConfig).NextFastcgi 0 =
        some ⟨false, true⟩ ∧
      (⟨false, true⟩ : FastcgiConfig).On = false ∧
      (⟨false, true⟩ : FastcgiConfig).IsDown = true := by
  decide

/-- C5 (amended): `NextBackend` picks only among backends with `On` true and
`IsDown` false and returns `none` exactly when no such backend exists;
`NextFastcgi` performs no on/down filtering: it picks among all configured
fastcgi entries and returns `none` exactly when the fastcgi list is empty. -/
theorem selectors_available_set (cfg : ServerConfig) (r : Nat) :
    (cfg.NextBackend r = none ↔
      ∀ b ∈ cfg.Backends, ¬(b.On = true ∧ b.IsDown = false)) ∧
    (∀ b, cfg.NextBackend r = some b →
      b ∈ cfg.Backends ∧ b.On = true ∧ b.IsDown = false) ∧
    (cfg.NextFastcgi r = none ↔ cfg.Fastcgi = []) ∧
    (∀ f, cfg.NextFastcgi r = some f → f ∈ cfg.Fastcgi) := by
  have havail : ∀ b : ServerBackendConfig,
      ((b.On && !b.IsDown) = true) ↔ (b.On = true ∧ b.IsDown = false) := by
    intro b
    cases hOn : b.On <;> cases hDown : b.IsDown <;> simp
  refine ⟨?_, ?_, ?_, ?_⟩
  · unfold ServerConfig.NextBackend ServerConfig.NextBackendE
    by_cases h0 : cfg.Backends.length = 0
    · rw [if_pos h0]
      have hnil : cfg.Backends = [] := List.length_eq_zero.mp h0
      simp [hnil]
    · rw [if_neg h0]
      by_cases hf : (cfg.Backends.filter fun b => b.On && !b.IsDown).length = 0
      · have hfe : (cfg.Backends.filter fun b => b.On && !b.IsDown) = [] :=
          List.length_eq_zero.mp hf
        simp only [hf, if_pos]
        rw [List.filter_eq_nil_iff] at hfe
        simp only [true_iff]
        intro b hb hcon
        exact (hfe b hb) ((havail b).mpr hcon)
      · simp only [hf, if_neg, Bool.false_eq_true, not_false_eq_true]
        have hlt : r % (cfg.Backends.filter fun b => b.On && !b.IsDown).length <
            (cfg.Backends.filter fun b => b.On && !b.IsDown).length :=
          Nat.mod_lt r (Nat.pos_of_ne_zero hf)
        constructor
        · intro hnone
          rw [List.get?_eq_get hlt] at hnone
          exact absurd hnone (by simp)
        · intro hall
          rcases List.length_pos.mp (Nat.pos_of_ne_zero hf) with hne
          rcases List.exists_mem_of_ne_nil _ hne with ⟨b, hb⟩
          have hmem := List.mem_filter.mp hb
          exact absurd ((havail b).mp hmem.2) (hall b hmem.1)
  · intro b hb
    unfold ServerConfig.NextBackend ServerConfig.NextBackendE at hb
    by_cases h0 : cfg.Backends.length = 0
    · rw [if_pos h0] at hb
      exact absurd hb (by simp)
    · rw [if_neg h0] at hb
      by_cases hf : (cfg.Backends.filter fun b => b.On && !b.IsDown).length = 0
      · simp only [hf, if_pos] at hb
        exact absurd hb (by simp)
      · simp only [hf, if_neg, Bool.false_eq_true, not_false_eq_true] at hb
        have hmemf : b ∈ cfg.Backends.filter fun b => b.On && !b.IsDown :=
          List.get?_mem hb
        have hmem := List.mem_filter.mp hmemf
        exact ⟨hmem.1, (havail b).mp hmem.2⟩
  · unfold ServerConfig.NextFastcgi ServerConfig.NextFastcgiE
    by_cases h0 : cfg.Fastcgi.length = 0
    · simp only [h0, if_pos]
      simp [List.length_eq_zero.mp h0]
    · simp only [h0, if_neg, Bool.false_eq_true, not_false_eq_true]
      have hlt : r % cfg.Fastcgi.length < cfg.Fastcgi.length :=
        Nat.mod_lt r (Nat.pos_of_ne_zero h0)
      constructor
      · intro hnone
        rw [List.get?_eq_get hlt] at hnone
        exact absurd hnone (by simp)
      · intro hnil
        exact absurd (congrArg List.length hnil) (by simpa using h0)
  · intro f hf
    unfold ServerConfig.NextFastcgi ServerConfig.NextFastcgiE at hf
    by_cases h0 : cfg.Fastcgi.length = 0
    · simp only [h0, if_pos] at hf
      exact absurd hf (by simp)
    · simp only [h0, if_neg, Bool.false_eq_true, not_false_eq_true] at hf
      exact List.get?_mem hf

/-- Witness for C5 at a concrete server with one live backend. -/
theorem selectors_available_set_witness :
    (⟨"b", true, false⟩ : ServerBackendConfig) ∈
        (⟨[], [⟨"b", true, false⟩], []⟩ : ServerConfig).Backends ∧
      (⟨"b", true, false⟩ : ServerBackendConfig).On = true ∧
      (⟨"b", true, false⟩ : ServerBackendConfig).IsDown = false :=
  (selectors_available_set ⟨[], [⟨"b", true, false⟩], []⟩ 0).2.1
    ⟨"b", true, false⟩ (by decide)

/-- C6 counterexample: two successive `NextBackend` calls on a server with a
live backend each invoke `rand.Seed` — the server-level selectors reseed the
generator on every call that reaches a pick, and `NextFastcgi` does too. -/
theorem selectors_reseed_per_call :
    ((⟨[], [⟨"b", true, false⟩], []⟩ : ServerConfig).NextBackendE 0).2 = 1 ∧
    ((⟨[], [⟨"b", true, false⟩], []⟩ : ServerConfig).NextBackendE 1).2 = 1 ∧
    ((⟨[], [], [⟨true, false⟩]⟩ : ServerConfig).NextFastcgiE 0).2 = 1 := by
  decide

/-- C6 (amended): `RandomScheduling` reseeds at most once per `Start` (never
when the pool is unschedulable) and `Next` never reseeds; the server-level
selectors, however, reseed once on every call that returns an entry. -/
theorem seeding_discipline (s : RandomScheduling) (cfg : ServerConfig) (r : Nat) :
    s.StartE.2 ≤ 1 ∧
    (s.NextE r).2 = 0 ∧
    ((cfg.NextBackendE r).1.isSome = true → (cfg.NextBackendE r).2 = 1) ∧
    ((cfg.NextFastcgiE r).1.isSome = true → (cfg.NextFastcgiE r).2 = 1) := by
  refine ⟨?_, ?_, ?_, ?_⟩
  · unfold RandomScheduling.StartE
    by_cases h : sumWeight s.Candidates = 0 <;> simp [h]
  · unfold RandomScheduling.NextE
    by_cases h : s.count = 0 <;> simp [h]
  · unfold ServerConfig.NextBackendE
    by_cases h0 : cfg.Backends.length = 0
    · simp [h0]
    · by_cases hf : (cfg.Backends.filter fun b => b.On && !b.IsDown).length = 0 <;>
        simp [h0, hf]
  · unfold ServerConfig.NextFastcgiE
    by_cases h0 : cfg.Fastcgi.length = 0 <;> simp [h0]

/-- Witness for C6 at concrete scheduler and server values. -/
theorem seeding_discipline_witness :
    ((⟨[], [], [⟨true, false⟩]⟩ : ServerConfig).NextFastcgiE 2).2 = 1 :=
  (seeding_discipline (newRandomScheduling []) ⟨[], [], [⟨true, false⟩]⟩ 2).2.2.2
    (by decide)

/-! ### Lemmas about `MatchName` -/

theorem matchNameLoop_cons (name t : String) (rest : List String) :
    matchNameLoop name (splitOnDot name) (t :: rest) =
      if nameMatches name t = true then
        if name = t then (t, true) else ("", true)
      else matchNameLoop name (splitOnDot name) rest := by
  by_cases h0 : t.length = 0
  · have hnm : nameMatches name t = false := by simp [nameMatches, h0]
    simp [matchNameLoop, h0, hnm]
  · by_cases heq : name = t
    · have hnm : nameMatches name t = true := by simp [nameMatches, h0, heq]
      subst heq
      simp [matchNameLoop, h0, hnm]
    · by_cases hlen : (splitOnDot name).length = (splitOnDot t).length
      · by_cases hpm : piecesMatch (splitOnDot name) (splitOnDot t) = true
        · have hnm : nameMatches name t = true := by
            simp [nameMatches, h0, heq, hlen, hpm]
          simp [matchNameLoop, h0, heq, hlen, hpm, hnm]
        · have hnm : nameMatches name t = false := by
            simp [nameMatches, h0, heq, hlen, hpm]
          simp [matchNameLoop, h0, heq, hlen, hpm, hnm]
      · have hnm : nameMatches name t = false := by
          simp [nameMatches, h0, heq, hlen]
        simp [matchNameLoop, h0, heq, hlen, hnm]

theorem matchNameLoop_snd (name : String) :
    ∀ names : List String,
      ((matchNameLoop name (splitOnDot name) names).2 = true ↔
        ∃ n ∈ names, nameMatches name n = true) := by
  intro names
  induction names with
  | nil => simp [matchNameLoop]
  | cons t rest ih =>
      rw [matchNameLoop_cons]
      by_cases hnm : nameMatches name t = true
      · rw [if_pos hnm]
        constructor
        · intro _
          exact ⟨t, List.mem_cons_self t rest, hnm⟩
        · intro _
          by_cases heq : name = t <;> simp [heq]
      · rw [if_neg hnm, ih]
        constructor
        · rintro ⟨n, hn, hm⟩
          exact ⟨n, List.mem_cons_of_mem t hn, hm⟩
        · rintro ⟨n, hn, hm⟩
          rcases List.mem_cons.mp hn with h | h
          · exact absurd (h ▸ hm) hnm
          · exact ⟨n, h, hm⟩

theorem matchName_snd (cfg : ServerConfig) (name : String) :
    ((cfg.MatchName name).2 = true ↔
      name.length ≠ 0 ∧ ∃ n ∈ cfg.Name, nameMatches name n = true) := by
  unfold ServerConfig.MatchName
  by_cases h0 : name.length = 0
  · simp [h0]
  · rw [if_neg h0, matchNameLoop_snd]
    simp [h0]

theorem matchNameLoop_exact (name n : String) (post : List String)
    (heq : name = n) (hnm : nameMatches name n = true) :
    ∀ pre : List String, (∀ m ∈ pre, nameMatches name m = false) →
      matchNameLoop name (splitOnDot name) (pre ++ n :: post) = (n, true) := by
  intro pre
  induction pre with
  | nil =>
      intro _
      rw [List.nil_append, matchNameLoop_cons, if_pos hnm, if_pos heq]
  | cons m pre ih =>
      intro h
      rw [List.cons_append, matchNameLoop_cons,
        if_neg (by simp [h m (List.mem_cons_self m pre)])]
      exact ih fun x hx => h x (List.mem_cons_of_mem m hx)

theorem matchNameLoop_wildcard_at (name t : String) (post : List String)
    (hnm : nameMatches name t = true) (hne : name ≠ t) :
    ∀ pre : List String, (∀ m ∈ pre, nameMatches name m = false) →
      matchNameLoop name (splitOnDot name) (pre ++ t :: post) = ("", true) := by
  intro pre
  induction pre with
  | nil =>
      intro _
      rw [List.nil_append, matchNameLoop_cons, if_pos hnm, if_neg hne]
  | cons m pre ih =>
      intro h
      rw [List.cons_append, matchNameLoop_cons,
        if_neg (by simp [h m (List.mem_cons_self m pre)])]
      exact ih fun x hx => h x (List.mem_cons_of_mem m hx)

theorem matchNameLoop_eq_exact (name n : String) (hn : n.length ≠ 0) :
    ∀ names : List String,
      matchNameLoop name (splitOnDot name) names = (n, true) →
      name = n ∧ ∃ pre post, names = pre ++ n :: post ∧
        (∀ m ∈ pre, nameMatches name m = false) := by
  intro names
  induction names with
  | nil =>
      intro h
      simp [matchNameLoop] at h
  | cons t rest ih =>
      rw [matchNameLoop_cons]
      by_cases hnm : nameMatches name t = true
      · rw [if_pos hnm]
        by_cases heq : name = t
        · rw [if_pos heq]
          intro h
          have ht : t = n := (Prod.mk.injEq t true n true).mp h |>.1
          subst ht
          exact ⟨heq, [], rest, rfl, fun m hm => absurd hm (List.not_mem_nil m)⟩
        · rw [if_neg heq]
          intro h
          have hempty : "" = n := (Prod.mk.injEq "" true n true).mp h |>.1
          exact absurd (hempty ▸ hn) (by simp)
      · rw [if_neg hnm]
        intro h
        rcases ih h with ⟨heq, pre, post, hsplit, hpre⟩
        refine ⟨heq, t :: pre, post, by rw [hsplit, List.cons_append], ?_⟩
        intro m hm
        rcases List.mem_cons.mp hm with hmt | hmp
        · exact hmt ▸ (Bool.not_eq_true _).mp hnm
        · exact hpre m hmp

theorem matchNameLoop_eq_wildcard (name : String) :
    ∀ names : List String,
      matchNameLoop name (splitOnDot name) names = ("", true) →
      ∃ pre t post, names = pre ++ t :: post ∧ nameMatches name t = true ∧
        name ≠ t ∧ (∀ m ∈ pre, nameMatches name m = false) := by
  intro names
  induction names with
  | nil =>
      intro h
      simp [matchNameLoop] at h
  | cons t rest ih =>
      rw [matchNameLoop_cons]
      by_cases hnm : nameMatches name t = true
      · rw [if_pos hnm]
        by_cases heq : name = t
        · rw [if_pos heq]
          intro h
          have ht : t = "" := (Prod.mk.injEq t true "" true).mp h |>.1
          subst ht
          simp [nameMatches] at hnm
        · rw [if_neg heq]
          intro _
          exact ⟨[], t, rest, rfl, hnm, heq,
            fun m hm => absurd hm (List.not_mem_nil m)⟩
      · rw [if_neg hnm]
        intro h
        rcases ih h with ⟨pre, u, post, hsplit, hu, hneu, hpre⟩
        refine ⟨t :: pre, u, post, by rw [hsplit, List.cons_append], hu, hneu, ?_⟩
        intro m hm
        rcases List.mem_cons.mp hm with hmt | hmp
        · exact hmt ▸ (Bool.not_eq_true _).mp hnm
        · exact hpre m hmp

theorem matchNameLoop_wildcard (name : String) :
    ∀ names : List String, (∀ n ∈ names, name ≠ n) →
      (∃ n ∈ names, nameMatches name n = true) →
      matchNameLoop name (splitOnDot name) names = ("", true) := by
  intro names
  induction names with
  | nil =>
      rintro _ ⟨n, hn, _⟩
      simp at hn
  | cons t rest ih =>
      intro hex hw
      rw [matchNameLoop_cons]
      by_cases hnm : nameMatches name t = true
      · rw [if_pos hnm, if_neg (hex t (List.mem_cons_self t rest))]
      · rw [if_neg hnm]
        apply ih fun x hx => hex x (List.mem_cons_of_mem t hx)
        rcases hw with ⟨n, hn, hm⟩
        rcases List.mem_cons.mp hn with h | h
        · exact absurd (h ▸ hm) hnm
        · exact ⟨n, h, hm⟩

/-! ### Claim theorems: domain matching -/

/-- C3 counterexample: host `x.b.com` matches configured `*.b.com` only via
the wildcard segment; `MatchName` returns `matched = true` but the empty
string — not the requested host — as the matched name. -/
theorem wildcard_match_not_host :
    (⟨["*.b.com"], [], []⟩ : ServerConfig).MatchName "x.b.com" = ("", true) ∧
      ("" : String) ≠ "x.b.com" := by
  decide

/-- C3 (amended): for every non-empty host matching some configured name only
via wildcard segments (no configured name equals the host exactly),
`MatchName` returns `matched = true` with the empty string as matched name
(not the requested host). -/
theorem wildcard_match_empty_literal (cfg : ServerConfig) (name : String)
    (hne : name.length ≠ 0) (hex : ∀ n ∈ cfg.Name, name ≠ n)
    (hw : ∃ n ∈ cfg.Name, nameMatches name n = true) :
    cfg.MatchName name = ("", true) := by
  unfold ServerConfig.MatchName
  rw [if_neg hne]
  exact matchNameLoop_wildcard name cfg.Name hex hw

/-- Witness for C3 (amended) at a concrete wildcard-only configuration. -/
theorem wildcard_match_empty_literal_witness :
    (⟨["*.d.com"], [], []⟩ : ServerConfig).MatchName "y.d.com" = ("", true) :=
  wildcard_match_empty_literal ⟨["*.d.com"], [], []⟩ "y.d.com" (by decide)
    (by decide) ⟨"*.d.com", by decide, by decide⟩

/-- C7 counterexample: the host `a.b.com` equals the configured name
`a.b.com`, but the earlier configured wildcard `*.b.com` matches first, so
`MatchName` returns `("", true)` instead of `("a.b.com", true)`: exact
equality does not take global priority over wildcard matching. -/
theorem exact_match_shadowed_by_wildcard :
    "a.b.com" ∈ (⟨["*.b.com", "a.b.com"], [], []⟩ : ServerConfig).Name ∧
      (⟨["*.b.com", "a.b.com"], [], []⟩ : ServerConfig).MatchName "a.b.com" ≠
        ("a.b.com", true) := by
  decide

/-- C7 (amended): `MatchName` scans the configured names in order, applying
the exact-equality test and the segment-wise comparison per name rather than
in two global phases; its result is characterized completely:
`matched = true` exactly when the non-empty host matches some configured name
exactly or segment-wise (equal dot-segment counts, each configured segment
equal to the host's, `*`, or empty); a non-empty configured name `n` is
returned as the matched name exactly when the host equals `n` and every
earlier configured name fails to match — an earlier wildcard match shadows a
later exact name; the empty matched name with `matched = true` occurs exactly
when the first matching configured name is a non-exact (wildcard) match; and
the three cited examples hold. -/
theorem matchName_algorithm (cfg : ServerConfig) (name : String) :
    ((cfg.MatchName name).2 = true ↔
      name.length ≠ 0 ∧ ∃ n ∈ cfg.Name, nameMatches name n = true) ∧
    (∀ n, n.length ≠ 0 →
      (cfg.MatchName name = (n, true) ↔
        name = n ∧ ∃ pre post, cfg.Name = pre ++ n :: post ∧
          ∀ m ∈ pre, nameMatches name m = false)) ∧
    (cfg.MatchName name = ("", true) ↔
      name.length ≠ 0 ∧ ∃ pre t post, cfg.Name = pre ++ t :: post ∧
        nameMatches name t = true ∧ name ≠ t ∧
        ∀ m ∈ pre, nameMatches name m = false) ∧
    ServerConfig.MatchName ⟨["a.b.com"], [], []⟩ "a.b.com" =
      ("a.b.com", true) ∧
    (ServerConfig.MatchName ⟨["*.b.com"], [], []⟩ "x.b.com").2 = true ∧
    (ServerConfig.MatchName ⟨["a.b.c.com"], [], []⟩ "a.b.com").2 = false := by
  refine ⟨matchName_snd cfg name, ?_, ?_, by decide, by decide, by decide⟩
  · intro n hn
    constructor
    · intro h
      by_cases h0 : name.length = 0
      · unfold ServerConfig.MatchName at h
        rw [if_pos h0] at h
        exact absurd ((Eq.mp (Prod.mk.injEq "" false n true) h).2) (by simp)
      · unfold ServerConfig.MatchName at h
        rw [if_neg h0] at h
        exact matchNameLoop_eq_exact name n hn cfg.Name h
    · rintro ⟨heq, pre, post, hsplit, hpre⟩
      have h0 : name.length ≠ 0 := by rw [heq]; exact hn
      have hnm : nameMatches name n = true := by
        subst heq
        simp [nameMatches, hn]
      unfold ServerConfig.MatchName
      rw [if_neg h0, hsplit]
      exact matchNameLoop_exact name n post heq hnm pre hpre
  · constructor
    · intro h
      by_cases h0 : name.length = 0
      · unfold ServerConfig.MatchName at h
        rw [if_pos h0] at h
        exact absurd ((Eq.mp (Prod.mk.injEq "" false "" true) h).2) (by simp)
      · unfold ServerConfig.MatchName at h
        rw [if_neg h0] at h
        exact ⟨h0, matchNameLoop_eq_wildcard name cfg.Name h⟩
    · rintro ⟨h0, pre, t, post, hsplit, hnm, hne, hpre⟩
      unfold ServerConfig.MatchName
      rw [if_neg h0, hsplit]
      exact matchNameLoop_wildcard_at name t post hnm hne pre hpre

/-- Witness for C7 at a concrete configuration where the exact name is
listed first. -/
theorem matchName_algorithm_witness :
    (⟨["e.f.com", "*.f.com"], [], []⟩ : ServerConfig).MatchName "e.f.com" =
      ("e.f.com", true) :=
  ((matchName_algorithm ⟨["e.f.com", "*.f.com"], [], []⟩ "e.f.com").2.1
      "e.f.com" (by decide)).mpr
    ⟨rfl, [], ["*.f.com"], rfl, fun m hm => absurd hm (List.not_mem_nil m)⟩

/-! ### Lemmas and claim theorem: the online (markUp) action -/

theorem find?_markBackendUp (backendId : String) :
    ∀ l : List ProxyBackend,
      (markBackendUp l backendId).find? (fun b => b.Id == backendId) =
        ((l.find? fun b => b.Id == backendId).map
          fun b => { b with IsDown := false, CurrentFails := 0 }) := by
  intro l
  induction l with
  | nil => rfl
  | cons b rest ih =>
      by_cases h : b.Id = backendId
      · simp [markBackendUp, List.find?_cons, h]
      · simp [markBackendUp, List.find?_cons, h, ih]

theorem find?_markPoolBackendUp (locationId : String) (websocket : Bool)
    (backendId : String) :
    ∀ pools : List BackendPool,
      ((markPoolBackendUp pools locationId websocket backendId).find?
          fun p => p.locationId == locationId && p.websocket == websocket) =
        ((pools.find? fun p =>
            p.locationId == locationId && p.websocket == websocket).map
          fun p => { p with Backends := markBackendUp p.Backends backendId }) := by
  intro pools
  induction pools with
  | nil => rfl
  | cons p rest ih =>
      by_cases h : (p.locationId == locationId && p.websocket == websocket) = true
      · simp [markPoolBackendUp, List.find?_cons, h]
      · simp only [markPoolBackendUp, Bool.not_eq_true] at h ⊢
        rw [if_neg (by simp [h]), List.find?_cons, List.find?_cons]
        simp [h, ih]

/-- C9: when the running server, the backend list and the backend with the
given id are all found, the online action sets that backend's `IsDown` to
false, resets its `CurrentFails` to 0 and re-runs scheduling setup on the
owning server; when the backend (or list, or server) is not found, nothing
changes. -/
theorem onlineRun_marks_up (rs : RunningServer) (locationId : String)
    (websocket : Bool) (backendId : String) :
    (∀ pool b, rs.FindBackendList locationId websocket = some pool →
      pool.FindBackend backendId = some b →
      (((OnlineRun rs locationId websocket backendId).FindBackendList
            locationId websocket).bind
          (fun p => p.FindBackend backendId) =
        some { b with IsDown := false, CurrentFails := 0 } ∧
      (OnlineRun rs locationId websocket backendId).schedulingSetups =
        rs.schedulingSetups + 1)) ∧
    (∀ pool, rs.FindBackendList locationId websocket = some pool →
      pool.FindBackend backendId = none →
      OnlineRun rs locationId websocket backendId = rs) ∧
    (rs.FindBackendList locationId websocket = none →
      OnlineRun rs locationId websocket backendId = rs) ∧
    OnlineRunAction none locationId websocket backendId = none := by
  refine ⟨?_, ?_, ?_, rfl⟩
  · intro pool b h1 h2
    unfold OnlineRun
    rw [h1]
    dsimp only
    rw [h2]
    dsimp only
    constructor
    · simp only [RunningServer.FindBackendList] at h1 ⊢
      rw [find?_markPoolBackendUp, h1]
      simp only [BackendPool.FindBackend] at h2 ⊢
      simp [find?_markBackendUp, h2]
    · rfl
  · intro pool h1 h2
    unfold OnlineRun
    rw [h1]
    dsimp only
    rw [h2]
  · intro h1
    unfold OnlineRun
    rw [h1]

/-- Witness for C9 at a concrete server with one pool and one down
backend. -/
theorem onlineRun_marks_up_witness :
    ((OnlineRun ⟨[⟨"loc", false, [⟨"b1", true, 7⟩]⟩], 0⟩ "loc" false
          "b1").FindBackendList "loc" false).bind
        (fun p => p.FindBackend "b1") =
      some { Id := "b1", IsDown := false, CurrentFails := 0 } ∧
    (OnlineRun ⟨[⟨"loc", false, [⟨"b1", true, 7⟩]⟩], 0⟩ "loc" false
        "b1").schedulingSetups = 0 + 1 :=
  (onlineRun_marks_up ⟨[⟨"loc", false, [⟨"b1", true, 7⟩]⟩], 0⟩ "loc" false
      "b1").1 ⟨"loc", false, [⟨"b1", true, 7⟩]⟩ ⟨"b1", true, 7⟩ (by decide)
    (by decide)
